import Mathlib

/-!
Verification of the keybinding core of nvitop (`nvitop/ui/keybinding.py`,
`nvitop/ui/top.py`): the key lexer (`parse_keybinding`, `construct_keybinding`,
`key_to_string`), the per-context key trie operated on by `KeyMaps`
(`bind`, `copy`, `unbind`/`_unbind_traverse`, `use_keymap`), the `KeyBuffer`
state machine (`add`, `clear`) and `Top.press`.

Python dicts are modelled as association lists with unique keys, in insertion
order; dict values in the trie are either nested dicts or opaque leaf objects
(`KObj`).  Fallible code paths (a `KeyError` or `TypeError` raised at runtime)
are modelled with `Option`/`Except`.
-/

/-- Values stored in a key trie: a nested dict or a leaf (an opaque action
object, or a string such as the `'false'` toggle value). -/
inductive KObj (α : Type) : Type where
  | leaf (a : α) : KObj α
  | dict (es : List (Int × KObj α)) : KObj α

/-- Leaf payloads used by the program: bound action handles (functions in the
source, identified here by a number) and plain strings (the
`allow_quantifiers = 'false'` toggle value). -/
inductive KAct : Type where
  | act (n : Nat) : KAct
  | str (s : String) : KAct
deriving DecidableEq

/-- Python `d[k]` lookup on a dict modelled as an association list. -/
def dictLookup {κ β : Type} [DecidableEq κ] : List (κ × β) → κ → Option β
  | [], _ => none
  | (k', v) :: rest, k => if k' = k then some v else dictLookup rest k

/-- Python `d[k] = v`: replace the value at an existing key in place, else
append the new entry (insertion order of a Python dict). -/
def dictInsert {κ β : Type} [DecidableEq κ] : List (κ × β) → κ → β → List (κ × β)
  | [], k, v => [(k, v)]
  | (k', v') :: rest, k, v =>
    if k' = k then (k, v) :: rest else (k', v') :: dictInsert rest k v

/-- Python `del d[k]`: remove the entry at the key (keys are unique in a
Python dict, so removing the first occurrence models it). -/
def dictDelete {κ β : Type} [DecidableEq κ] : List (κ × β) → κ → List (κ × β)
  | [], _ => []
  | (k', v') :: rest, k =>
    if k' = k then rest else (k', v') :: dictDelete rest k

/-- Emptiness of a trie node object, Python truthiness `not pointer`:
an empty dict is falsy.  (Leaves are functions, which are truthy.) -/
def isEmptyObj {α : Type} : KObj α → Bool
  | KObj.leaf _ => false
  | KObj.dict es => es.isEmpty

theorem dictLookup_insert_self {κ β : Type} [DecidableEq κ]
    (es : List (κ × β)) (k : κ) (v : β) :
    dictLookup (dictInsert es k v) k = some v := by
  induction es with
  | nil => simp [dictInsert, dictLookup]
  | cons p rest ih =>
    obtain ⟨k', v'⟩ := p
    by_cases h : k' = k
    · subst h; simp [dictInsert, dictLookup]
    · simp [dictInsert, dictLookup, h, ih]

theorem dictLookup_insert_other {κ β : Type} [DecidableEq κ]
    (es : List (κ × β)) (k k' : κ) (v : β) (h : k ≠ k') :
    dictLookup (dictInsert es k v) k' = dictLookup es k' := by
  induction es with
  | nil => simp [dictInsert, dictLookup, h]
  | cons p rest ih =>
    obtain ⟨k0, v0⟩ := p
    by_cases h0 : k0 = k
    · subst h0; simp [dictInsert, dictLookup, h]
    · simp [dictInsert, dictLookup, h0, ih]

theorem dictInsert_lookup_eq {κ β : Type} [DecidableEq κ]
    (es : List (κ × β)) (k : κ) (v : β) (h : dictLookup es k = some v) :
    dictInsert es k v = es := by
  induction es with
  | nil => simp [dictLookup] at h
  | cons p rest ih =>
    obtain ⟨k0, v0⟩ := p
    by_cases h0 : k0 = k
    · subst h0
      simp [dictLookup] at h
      simp [dictInsert, h]
    · simp [dictLookup, h0] at h
      simp [dictInsert, h0, ih h]

theorem dictDelete_lookup_none {κ β : Type} [DecidableEq κ]
    (es : List (κ × β)) (k : κ) (h : dictLookup es k = none) :
    dictDelete es k = es := by
  induction es with
  | nil => simp [dictDelete]
  | cons p rest ih =>
    obtain ⟨k0, v0⟩ := p
    by_cases h0 : k0 = k
    · subst h0; simp [dictLookup] at h
    · simp [dictLookup, h0] at h
      simp [dictDelete, h0, ih h]

theorem dictDelete_insert {κ β : Type} [DecidableEq κ]
    (es : List (κ × β)) (k : κ) (v : β) :
    dictDelete (dictInsert es k v) k = dictDelete es k := by
  induction es with
  | nil => simp [dictInsert, dictDelete]
  | cons p rest ih =>
    obtain ⟨k0, v0⟩ := p
    by_cases h0 : k0 = k
    · subst h0; simp [dictInsert, dictDelete]
    · simp [dictInsert, dictDelete, h0, ih]

theorem dictLookup_eq_none_of_not_mem {κ β : Type} [DecidableEq κ]
    (es : List (κ × β)) (k : κ) (h : k ∉ es.map Prod.fst) :
    dictLookup es k = none := by
  induction es with
  | nil => simp [dictLookup]
  | cons p rest ih =>
    obtain ⟨k0, v0⟩ := p
    simp only [List.map_cons, List.mem_cons] at h
    push_neg at h
    have hne : k0 ≠ k := fun hh => h.1 hh.symm
    simp only [dictLookup, if_neg hne]
    exact ih h.2

theorem dictLookup_delete_self {κ β : Type} [DecidableEq κ]
    (es : List (κ × β)) (k : κ) (hnd : (es.map Prod.fst).Nodup) :
    dictLookup (dictDelete es k) k = none := by
  induction es with
  | nil => simp [dictDelete, dictLookup]
  | cons p rest ih =>
    obtain ⟨k0, v0⟩ := p
    simp only [List.map_cons, List.nodup_cons] at hnd
    by_cases h0 : k0 = k
    · subst h0
      simp only [dictDelete, if_pos rfl]
      exact dictLookup_eq_none_of_not_mem rest k0 hnd.1
    · simp [dictDelete, h0, dictLookup, ih hnd.2]

/-- Result of resolving a key sequence against a trie node: the sequence leads
to an object, hits a missing key, or runs past a leaf (a non-dict) before the
sequence is exhausted. -/
inductive PathStatus (α : Type) : Type where
  | found (o : KObj α) : PathStatus α
  | missing : PathStatus α
  | blocked : PathStatus α

/-- Resolution of a key sequence against a trie dict, following one dict
lookup per symbol. -/
def resolveEnt {α : Type} : List Int → List (Int × KObj α) → PathStatus α
  | [], es => PathStatus.found (KObj.dict es)
  | k :: rest, es =>
    match dictLookup es k, rest with
    | none, _ => PathStatus.missing
    | some child, [] => PathStatus.found child
    | some (KObj.leaf _), _ :: _ => PathStatus.blocked
    | some (KObj.dict ces), k2 :: rest' => resolveEnt (k2 :: rest') ces

/-- The walk of `KeyMaps.bind` over a trie dict: for every symbol except the
last, descend into an existing dict child, and otherwise (absent slot, or a
slot holding a non-dict leaf) replace the slot with a fresh dict; finally set
the leaf object at the last symbol (`pointer[last_key] = leaf`). -/
def trieBind {α : Type} : List Int → List (Int × KObj α) → KObj α →
    List (Int × KObj α)
  | [], es, _ => es
  | [k], es, v => dictInsert es k v
  | k :: k2 :: rest, es, v =>
    match dictLookup es k with
    | some (KObj.dict ces) => dictInsert es k (KObj.dict (trieBind (k2 :: rest) ces v))
    | _ => dictInsert es k (KObj.dict (trieBind (k2 :: rest) [] v))

/-- The recursion of `KeyMaps._unbind_traverse` on a trie dict.  Returns
`none` when the Python code raises a `TypeError`: the recursive call is made
on `pointer[keys[pos]]` even when that slot holds a leaf (a function object),
and the first line of the callee then evaluates `keys[pos] not in pointer`
on a non-container, which raises.  The `keys.pop()` performed at the leaf
level only shortens the caller's local list past every index that is read
again, so it has no observable effect and is not modelled.  After a
successful recursive call the child dict has been mutated in place (modelled
by `dictInsert` of the new child), and is deleted when it became empty. -/
def unbindT {α : Type} : List Int → List (Int × KObj α) →
    Option (List (Int × KObj α))
  | [], es => some es
  | [k], es =>
    match dictLookup es k with
    | none => some es
    | some _ => some (dictDelete es k)
  | k :: k2 :: rest, es =>
    match dictLookup es k with
    | none => some es
    | some (KObj.leaf _) => none
    | some (KObj.dict ces) =>
      match unbindT (k2 :: rest) ces with
      | none => none
      | some ces' =>
        if ces'.isEmpty then some (dictDelete (dictInsert es k (KObj.dict ces')) k)
        else some (dictInsert es k (KObj.dict ces'))

/-- Error raised by the resolution loop of `KeyMaps.copy`: a missing key
raises `KeyError` (reported as "binding not found"), while subscripting a
non-dict leaf raises an uncaught `TypeError`. -/
inductive CopyErr : Type where
  | notFound : CopyErr
  | typeErr : CopyErr
deriving DecidableEq

/-- The resolution loop of `KeyMaps.copy`: `pointer = pointer[key]` for every
symbol of the cleaned source sequence. -/
def walkObj {α : Type} : List Int → KObj α → Except CopyErr (KObj α)
  | [], o => Except.ok o
  | _ :: _, KObj.leaf _ => Except.error CopyErr.typeErr
  | k :: rest, KObj.dict es =>
    match dictLookup es k with
    | none => Except.error CopyErr.notFound
    | some child => walkObj rest child

/-- Value of an entry of `SPECIAL_KEYS`: a single key code, or an
`(ALT_KEY, code)` pair for `a-`-prefixed names. -/
inductive KeyVal : Type where
  | i (k : Int) : KeyVal
  | pair (a b : Int) : KeyVal
deriving DecidableEq

/-- Integer code of a character, Python `ord`. -/
def charOrd (c : Char) : Int := (c.toNat : Int)

/-- Decimal digit character for a value below ten. -/
def digitChar (d : Nat) : Char := Char.ofNat (48 + d)

/-- Decimal digit characters of a number, most significant first; the `fuel`
argument only bounds the recursion depth and any `fuel > n` is enough. -/
def natToCharsAux : Nat → Nat → List Char
  | 0, _ => []
  | fuel + 1, n =>
    if n < 10 then [digitChar n]
    else natToCharsAux fuel (n / 10) ++ [digitChar (n % 10)]

/-- Decimal representation of a natural number, Python `str` on a
non-negative int. -/
def natToChars (n : Nat) : List Char := natToCharsAux (n + 1) n

/-- Python `str` of an int (used by `key_to_string` for unnamed codes). -/
def intToChars (k : Int) : List Char :=
  if k < 0 then '-' :: natToChars k.natAbs else natToChars k.toNat

/-- The literal `SPECIAL_KEYS` table of the source before
`special_keys_init` runs, in insertion order, with the concrete values of the
curses constants (`KEY_BACKSPACE = 263`, `DEL = 127`, `KEY_DC = 330`,
`KEY_SDC = 383`, `KEY_IC = 331`, `ESC = 27`, `KEY_DOWN..KEY_RIGHT =
258..261`, `KEY_NPAGE = 338`, `KEY_PPAGE = 339`, `KEY_HOME = 262`,
`KEY_END = 360`, `KEY_BTAB = 353`). -/
def baseSpecialKeys : List (String × Int) :=
  [("bs", 263), ("backspace", 263), ("backspace2", 127), ("delete", 330),
   ("s-delete", 383), ("insert", 331), ("cr", 10), ("enter", 10),
   ("return", 10), ("space", 32), ("esc", 27), ("escape", 27), ("down", 258),
   ("up", 259), ("left", 260), ("right", 261), ("pagedown", 338),
   ("pageup", 339), ("home", 262), ("end", 360), ("tab", 9), ("s-tab", 353),
   ("lt", 60), ("gt", 62)]

/-- Characters given an `a-` alias by `special_keys_init`. -/
def altAliasChars : List Char :=
  "abcdefghijklmnopqrstuvwxyzABCDEFGHIJKLMNOPQRSTUVWXYZ0123456789_!\x7b\x7d[],./".toList

/-- Characters given a `c-` entry (`ord(char) - 96`) by `special_keys_init`. -/
def ctrlAliasChars : List Char := "abcdefghijklmnopqrstuvwxyz_".toList

/-- The full `SPECIAL_KEYS` table after `special_keys_init` and the
`VERY_SPECIAL_KEYS` update, in dict insertion order (all names are distinct,
so insertion order is also lookup-irrelevant, but it decides the
last-writer-wins construction of `REVERSED_SPECIAL_KEYS`). -/
def specialKeys : List (String × KeyVal) :=
  (baseSpecialKeys.map (fun p => (p.1, KeyVal.i p.2)))
  ++ (baseSpecialKeys.map (fun p => ("a-" ++ p.1, KeyVal.pair 9003 p.2)))
  ++ (altAliasChars.map (fun c => ("a-" ++ String.mk [c], KeyVal.pair 9003 (charOrd c))))
  ++ (ctrlAliasChars.map (fun c => ("c-" ++ String.mk [c], KeyVal.i (charOrd c - 96))))
  ++ [("c-space", KeyVal.i 0)]
  ++ ((List.range 64).map (fun n => ("f" ++ String.mk (natToChars n), KeyVal.i (264 + (n : Int)))))
  ++ [("any", KeyVal.i 9001), ("alt", KeyVal.i 9003), ("bg", KeyVal.i 9002),
      ("allow_quantifiers", KeyVal.i 9004)]

/-- Lookup in `SPECIAL_KEYS` (names are unique, so first match is the dict
lookup). -/
def specialLookup (s : String) : Option KeyVal :=
  (specialKeys.find? (fun p => p.1 == s)).map (fun p => p.2)

/-- Integer-keyed entries of `REVERSED_SPECIAL_KEYS = {v: k for k, v in
SPECIAL_KEYS.items()}`; tuple-valued entries get tuple keys in the reversed
dict and can never be hit by the integer lookup of `key_to_string`, so only
the integer-valued ones matter. -/
def revPairs : List (Int × String) :=
  specialKeys.filterMap (fun p =>
    match p.2 with
    | KeyVal.i k => some (k, p.1)
    | KeyVal.pair _ _ => none)

/-- Lookup in `REVERSED_SPECIAL_KEYS` for an integer key: the dict
comprehension lets the last name written for a value win. -/
def revLookup (key : Int) : Option String :=
  revPairs.foldl (fun acc p => if p.1 = key then some p.2 else acc) none

/-- ASCII lower-casing of one character, `str.lower` restricted to the ASCII
range (every special-key name is ASCII). -/
def lowerChar (c : Char) : Char :=
  if 65 ≤ c.toNat ∧ c.toNat ≤ 90 then Char.ofNat (c.toNat + 32) else c

/-- Case normalization of a bracket body in `parse_keybinding`: the whole
body is lowered, except that a three-character `a-X` / `c-X` form keeps the
case of `X` (`'{}-{}'.format(string_lower[0], string[-1])`). -/
def normalizeBracket (content : List Char) : List Char :=
  match content with
  | [c1, c2, c3] =>
    let l1 := lowerChar c1
    if (l1 = 'a' ∨ l1 = 'c') ∧ lowerChar c2 = '-' then [l1, '-', c3]
    else [l1, lowerChar c2, lowerChar c3]
  | l => l.map lowerChar

/-- ASCII decimal test of a string body, Python `str.isdigit` on ASCII text
(empty strings are not digits). -/
def isDigitsStr (l : List Char) : Bool :=
  !l.isEmpty && l.all (fun c => 48 ≤ c.toNat && c.toNat ≤ 57)

/-- Python `int` on a decimal digit string. -/
def charsToNat (l : List Char) : Nat :=
  l.foldl (fun a c => a * 10 + (c.toNat - 48)) 0

/-- Symbols emitted for one closed `<...>` bracket: a table hit yields the
key code (both codes for an `(ALT, key)` tuple — the `TypeError` fallback of
the source yields the single int); an all-digit body yields that literal
code; any other unknown body is flushed literally as `<`, the original body
characters, `>`. -/
def bracketEmit (content : List Char) : List Int :=
  let s := normalizeBracket content
  match specialLookup (String.mk s) with
  | some (KeyVal.pair a b) => [a, b]
  | some (KeyVal.i k) => [k]
  | none =>
    if isDigitsStr s then [((charsToNat s : Nat) : Int)]
    else 60 :: (content.map charOrd) ++ [62]

/-- The character scan of `parse_keybinding` on a string: outside brackets a
`<` opens a bracket (with fresh content) and any other character yields its
code; inside brackets a `>` closes and emits the bracket, any other
character is appended to the content; an unterminated bracket at the end of
the string is flushed as the literal `<` followed by the content codes. -/
def parseGo : List Char → Bool → List Char → List Int
  | [], false, _ => []
  | [], true, content => 60 :: content.map charOrd
  | c :: cs, true, content =>
    if c = '>' then bracketEmit content ++ parseGo cs false []
    else parseGo cs true (content ++ [c])
  | c :: cs, false, content =>
    if c = '<' then parseGo cs true []
    else charOrd c :: parseGo cs false content

/-- Translation of a keybinding string to its sequence of integer key
symbols (`parse_keybinding` on a `str` argument, with the generator
materialized). -/
def parse_keybinding (s : String) : List Int := parseGo s.toList false []

/-- Characters produced by `key_to_string` for one key code: a printable
ASCII code (33..126) maps to its character, a code in
`REVERSED_SPECIAL_KEYS` to its bracketed canonical name, anything else to
its bracketed decimal value. -/
def keyChars (key : Int) : List Char :=
  if 33 ≤ key ∧ key < 127 then [Char.ofNat key.toNat]
  else
    match revLookup key with
    | some name => '<' :: name.toList ++ ['>']
    | none => '<' :: intToChars key ++ ['>']

/-- String form of one key code (`key_to_string`). -/
def key_to_string (key : Int) : String := String.mk (keyChars key)

/-- Reverse translation of a key-symbol sequence to a string
(`construct_keybinding`): `''.join` of the `key_to_string` images, i.e. the
concatenation of their character lists. -/
def construct_keybinding (ks : List Int) : String :=
  String.mk (ks.flatMap keyChars)

/-- UTF-8 bytes of one code point (for `keys.encode('utf-8')`). -/
def utf8Bytes (n : Nat) : List Nat :=
  if n < 128 then [n]
  else if n < 2048 then [192 + n / 64, 128 + n % 64]
  else if n < 65536 then [224 + n / 4096, 128 + (n / 64) % 64, 128 + n % 64]
  else [240 + n / 262144, 128 + (n / 4096) % 64, 128 + (n / 64) % 64, 128 + n % 64]

/-- The `keys.encode('utf-8').decode('latin-1')` normalization of
`KeyMaps._clean_input`: every UTF-8 byte becomes one character U+00..U+FF
(the identity on ASCII text). -/
def utf8Latin1 (s : String) : String :=
  String.mk (((s.toList.map Char.toNat).flatMap utf8Bytes).map Char.ofNat)

/-- Key sequence obtained from a binding string by `KeyMaps._clean_input`:
re-encode, then lex. -/
def cleanKeys (s : String) : List Int := parse_keybinding (utf8Latin1 s)

/-- The `KeyMaps` object: a dict from context name to trie root, plus the
name of the context currently in use (`used_keymap`, initially `None`). -/
structure KeyMapsT (α : Type) : Type where
  contexts : List (String × List (Int × KObj α))
  used_keymap : Option String

/-- Trie root of a context as `_clean_input` returns it (an existing root,
or a fresh empty dict). -/
def ctxTrie {α : Type} (km : KeyMapsT α) (context : String) :
    List (Int × KObj α) :=
  (dictLookup km.contexts context).getD []

/-- Contexts dict after `_clean_input` has ensured the context exists
(`self[context] = pointer = dict()` on `KeyError`). -/
def ensureCtx {α : Type} (km : KeyMapsT α) (context : String) : KeyMapsT α :=
  { km with contexts := dictInsert km.contexts context (ctxTrie km context) }

/-- `KeyMaps.bind(context, keys, leaf)`: clean the input (which also creates
the context), no-op on an empty key sequence, else walk-and-set through
`trieBind`.  The leaf argument is an arbitrary object (`KeyMaps.copy` passes
a whole subtree). -/
def kmBind {α : Type} (km : KeyMapsT α) (context : String) (keys : String)
    (leaf : KObj α) : KeyMapsT α :=
  let km1 := ensureCtx km context
  let ks := cleanKeys keys
  if ks.isEmpty then km1
  else { km1 with contexts := dictInsert km1.contexts context (trieBind ks (ctxTrie km context) leaf) }

/-- `KeyMaps.copy(context, source, target)`: resolve the full cleaned source
sequence (`KeyError` → the "binding not found" error; subscripting a leaf →
`TypeError`), then bind a deep copy of the resolved object at the target.
A deep copy of a pure value is the value itself, so `copy.deepcopy` is the
identity here. -/
def kmCopy {α : Type} (km : KeyMapsT α) (context : String)
    (source target : String) : Except CopyErr (KeyMapsT α) :=
  let km1 := ensureCtx km context
  if source = "" then Except.ok km1
  else
    match walkObj (cleanKeys source) (KObj.dict (ctxTrie km context)) with
    | Except.error e => Except.error e
    | Except.ok o => Except.ok (kmBind km1 context target o)

/-- `KeyMaps.unbind(context, keys)`: clean the input, no-op on an empty
sequence, else run `_unbind_traverse` (`none` models the `TypeError` raised
when the sequence runs past a leaf). -/
def kmUnbind {α : Type} (km : KeyMapsT α) (context : String) (keys : String) :
    Option (KeyMapsT α) :=
  let km1 := ensureCtx km context
  let ks := cleanKeys keys
  if ks.isEmpty then some km1
  else
    match unbindT ks (ctxTrie km context) with
    | none => none
    | some t => some { km1 with contexts := dictInsert km1.contexts context t }

/-- The `KeyBuffer` state: the active keymap dict, consumed keys, wildcard
log, current trie pointer, pending result, quantifier and the three parsing
flags. -/
structure KB : Type where
  keymap : List (Int × KObj KAct)
  keys : List Int
  wildcards : List Int
  pointer : KObj KAct
  result : Option (KObj KAct)
  quantifier : Option Int
  finished_parsing_quantifier : Bool
  finished_parsing : Bool
  parse_error : Bool

/-- The quantifier-disabling test of `KeyBuffer.__init__`: a non-empty keymap
whose `QUANT_KEY` (9004) entry equals the string `'false'`. -/
def quantDisabled (m : List (Int × KObj KAct)) : Bool :=
  !m.isEmpty &&
    (match dictLookup m 9004 with
     | some (KObj.leaf (KAct.str s)) => s == "false"
     | _ => false)

/-- A `KeyBuffer` as `__init__`/`clear` produce it for a given keymap dict:
empty logs, pointer at the root, no result, no quantifier, and quantifier
parsing already finished when the keymap disables quantifiers. -/
def freshKB (m : List (Int × KObj KAct)) : KB :=
  { keymap := m
    keys := []
    wildcards := []
    pointer := KObj.dict m
    result := none
    quantifier := none
    finished_parsing_quantifier := quantDisabled m
    finished_parsing := false
    parse_error := false }

/-- Membership of a key code in `DIGITS` (`set(map(ord, '0123456789'))`). -/
def isDigitKey (key : Int) : Bool := 48 ≤ key && key ≤ 57

/-- State update after a successful pointer move in `KeyBuffer.add`: a dict
child may expose a `PASSIVE_ACTION` (9002) entry as the pending result; a
non-dict child is the final result and finishes parsing. -/
def afterMove (b : KB) (child : KObj KAct) : KB :=
  match child with
  | KObj.dict es' => { b with pointer := child, result := dictLookup es' 9002 }
  | KObj.leaf _ =>
    { b with pointer := child, result := some child, finished_parsing := true }

/-- One step of `KeyBuffer.add(key)`.  The second component is `true` when
the Python code raises a `TypeError` (`key in self.pointer` with the pointer
already resting on a leaf); the first component is the buffer state at that
point (`keys` appended, `result` reset, quantifier parsing marked finished).
An unexcluded key (`exclude_from_anykey = [ESC] = [27]`) can fall back to
the `ANYKEY` (9001) wildcard child. -/
def addB (b : KB) (key : Int) : KB × Bool :=
  let b0 : KB := { b with keys := b.keys ++ [key], result := none }
  if !b0.finished_parsing_quantifier && isDigitKey key then
    ({ b0 with quantifier := some ((b0.quantifier.getD 0) * 10 + key - 48) }, false)
  else
    let b1 : KB := { b0 with finished_parsing_quantifier := true }
    match b1.pointer with
    | KObj.leaf _ => (b1, true)
    | KObj.dict es =>
      match dictLookup es key with
      | some child => (afterMove b1 child, false)
      | none =>
        match dictLookup es 9001 with
        | some child =>
          if key = 27 then
            ({ b1 with finished_parsing := true, parse_error := true }, false)
          else
            (afterMove { b1 with wildcards := b1.wildcards ++ [key] } child, false)
        | none => ({ b1 with finished_parsing := true, parse_error := true }, false)

/-- `KeyMaps.use_keymap(keymap_name)`: point the buffer's keymap at the named
context (an empty dict when absent) and clear the buffer only when the name
differs from the previously used one. -/
def useKeymap (km : KeyMapsT KAct) (buf : KB) (name : String) :
    KeyMapsT KAct × KB :=
  let m := (dictLookup km.contexts name).getD []
  let buf1 : KB := { buf with keymap := m }
  if km.used_keymap ≠ some name then
    ({ km with used_keymap := some name }, freshKB m)
  else (km, buf1)

/-- Exceptions that can escape a bound action or the buffer step in
`Top.press`: the intentional `BreakLoop` loop-termination signal, the
`TypeError` of a stale pointer, or any other exception an action raises. -/
inductive PyExc : Type where
  | breakLoop : PyExc
  | typeErr : PyExc
  | other : PyExc
deriving DecidableEq

/-- `Top.press(key)`: feed the key to the buffer; when a result is present
invoke it (its effect abstracted as `run`, which may raise), and in the
`finally` block clear the buffer whenever parsing is finished — also on the
exceptional path; with no result, a finished parse clears the buffer and
reports the key unhandled (`False`). -/
def pressT (run : KObj KAct → Except PyExc Unit) (b : KB) (key : Int) :
    Except PyExc Bool × KB :=
  match addB b key with
  | (b1, true) => (Except.error PyExc.typeErr, b1)
  | (b1, false) =>
    match b1.result with
    | some r =>
      let b2 := if b1.finished_parsing then freshKB b1.keymap else b1
      (match run r with
       | Except.ok _ => Except.ok true
       | Except.error e => Except.error e, b2)
    | none =>
      if b1.finished_parsing then (Except.ok false, freshKB b1.keymap)
      else (Except.ok true, b1)

/-- Well-formedness of a trie value as the `KeyMaps` operations maintain it:
every inner dict is non-empty (bind fills every dict it creates, unbind
prunes dicts that become empty) and has duplicate-free keys. -/
inductive GoodNode {α : Type} : KObj α → Prop where
  | leaf (a : α) : GoodNode (KObj.leaf a)
  | dict (es : List (Int × KObj α)) (hne : es ≠ [])
      (hnd : (es.map Prod.fst).Nodup)
      (h : ∀ p ∈ es, GoodNode p.2) : GoodNode (KObj.dict es)

theorem goodNode_dict_iff {α : Type} (es : List (Int × KObj α)) :
    GoodNode (KObj.dict es) ↔
      es ≠ [] ∧ (es.map Prod.fst).Nodup ∧ ∀ p ∈ es, GoodNode p.2 := by
  constructor
  · intro h
    cases h with
    | dict _ hne hnd hh => exact ⟨hne, hnd, hh⟩
  · rintro ⟨hne, hnd, hh⟩
    exact GoodNode.dict es hne hnd hh

theorem mem_of_dictLookup {κ β : Type} [DecidableEq κ]
    (es : List (κ × β)) (k : κ) (v : β) (h : dictLookup es k = some v) :
    (k, v) ∈ es := by
  induction es with
  | nil => simp [dictLookup] at h
  | cons p rest ih =>
    obtain ⟨k0, v0⟩ := p
    by_cases h0 : k0 = k
    · subst h0
      have hv : v0 = v := by simpa [dictLookup] using h
      subst hv
      exact List.mem_cons_self _ _
    · simp only [dictLookup, if_neg h0] at h
      exact List.mem_cons_of_mem _ (ih h)

theorem unbindT_of_missing {α : Type} :
    ∀ (ks : List Int) (es : List (Int × KObj α)),
      (∀ p ∈ es, GoodNode p.2) →
      resolveEnt ks es = PathStatus.missing →
      unbindT ks es = some es := by
  intro ks
  induction ks with
  | nil =>
    intro es _ hres
    simp [resolveEnt] at hres
  | cons k rest ih =>
    intro es hgood hres
    cases hl : dictLookup es k with
    | none =>
      cases rest with
      | nil => simp [unbindT, hl]
      | cons k2 rest' => simp [unbindT, hl]
    | some child =>
      cases rest with
      | nil => simp [resolveEnt, hl] at hres
      | cons k2 rest' =>
        cases child with
        | leaf a => simp [resolveEnt, hl] at hres
        | dict ces =>
          have hres' : resolveEnt (k2 :: rest') ces = PathStatus.missing := by
            simpa [resolveEnt, hl] using hres
          have hgc := hgood _ (mem_of_dictLookup es k _ hl)
          rw [goodNode_dict_iff] at hgc
          have hrec := ih ces hgc.2.2 hres'
          have hemp : ces.isEmpty = false := by
            cases ces
            · exact absurd rfl hgc.1
            · rfl
          simp only [unbindT, hl, hrec, hemp, Bool.false_eq_true, if_false]
          rw [dictInsert_lookup_eq es k _ hl]

theorem unbindT_of_blocked {α : Type} :
    ∀ (ks : List Int) (es : List (Int × KObj α)),
      resolveEnt ks es = PathStatus.blocked →
      unbindT ks es = none := by
  intro ks
  induction ks with
  | nil =>
    intro es hres
    simp [resolveEnt] at hres
  | cons k rest ih =>
    intro es hres
    cases hl : dictLookup es k with
    | none =>
      cases rest with
      | nil => simp [resolveEnt, hl] at hres
      | cons k2 rest' => simp [resolveEnt, hl] at hres
    | some child =>
      cases rest with
      | nil => simp [resolveEnt, hl] at hres
      | cons k2 rest' =>
        cases child with
        | leaf a => simp [unbindT, hl]
        | dict ces =>
          have hres' : resolveEnt (k2 :: rest') ces = PathStatus.blocked := by
            simpa [resolveEnt, hl] using hres
          simp [unbindT, hl, ih ces hres']

theorem unbindT_of_found {α : Type} :
    ∀ (ks : List Int) (es : List (Int × KObj α)),
      (es.map Prod.fst).Nodup →
      (∀ p ∈ es, GoodNode p.2) →
      ks ≠ [] →
      ∀ o, resolveEnt ks es = PathStatus.found o →
      ∃ es', unbindT ks es = some es' ∧ resolveEnt ks es' = PathStatus.missing := by
  intro ks
  induction ks with
  | nil =>
    intro es _ _ hne
    exact absurd rfl hne
  | cons k rest ih =>
    intro es hnd hgood _ o hres
    cases hl : dictLookup es k with
    | none =>
      cases rest with
      | nil => simp [resolveEnt, hl] at hres
      | cons k2 rest' => simp [resolveEnt, hl] at hres
    | some child =>
      cases rest with
      | nil =>
        refine ⟨dictDelete es k, by simp [unbindT, hl], ?_⟩
        simp [resolveEnt, dictLookup_delete_self es k hnd]
      | cons k2 rest' =>
        cases child with
        | leaf a => simp [resolveEnt, hl] at hres
        | dict ces =>
          have hres' : resolveEnt (k2 :: rest') ces = PathStatus.found o := by
            simpa [resolveEnt, hl] using hres
          have hgc := hgood _ (mem_of_dictLookup es k _ hl)
          rw [goodNode_dict_iff] at hgc
          obtain ⟨ces', hu, hm⟩ :=
            ih ces hgc.2.1 hgc.2.2 (by simp) o hres'
          by_cases hemp : ces'.isEmpty = true
          · refine ⟨dictDelete (dictInsert es k (KObj.dict ces')) k, ?_, ?_⟩
            · simp [unbindT, hl, hu, hemp]
            · rw [dictDelete_insert]
              simp [resolveEnt, dictLookup_delete_self es k hnd]
          · have hemp' : ces'.isEmpty = false := by
              cases h : ces'.isEmpty
              · rfl
              · exact absurd h hemp
            refine ⟨dictInsert es k (KObj.dict ces'), ?_, ?_⟩
            · simp [unbindT, hl, hu, hemp']
            · simp [resolveEnt, dictLookup_insert_self, hm]

/-- C1 (amended): on a well-formed trie (non-empty inner dicts,
duplicate-free keys — the shape `bind`/`unbind` maintain), `unbind` of an
existing exact sequence removes the leaf (resolution of the sequence
afterwards hits a missing key), and a sequence whose resolution stops at a
missing dict key is a silent no-op; but a sequence that extends past an
existing leaf makes `_unbind_traverse` recurse into the leaf and raise a
`TypeError` (modelled by `none`) instead of being a no-op. -/
theorem C1_unbind_behavior {α : Type} (ks : List Int)
    (es : List (Int × KObj α)) (hnd : (es.map Prod.fst).Nodup)
    (hgood : ∀ p ∈ es, GoodNode p.2) (hks : ks ≠ []) :
    (resolveEnt ks es = PathStatus.missing → unbindT ks es = some es)
    ∧ (∀ o, resolveEnt ks es = PathStatus.found o →
        ∃ es', unbindT ks es = some es' ∧ resolveEnt ks es' = PathStatus.missing)
    ∧ (resolveEnt ks es = PathStatus.blocked → unbindT ks es = none) :=
  ⟨unbindT_of_missing ks es hgood,
   fun o ho => unbindT_of_found ks es hnd hgood hks o ho,
   unbindT_of_blocked ks es⟩

/-- Witness for C1: on the trie `{103: {104: leaf}}`, unbinding the bound
sequence `[103, 104]` removes it, and unbinding the missing key `[105]` is a
no-op. -/
theorem C1_unbind_behavior_witness :
    (∃ es', unbindT [103, 104] [(103, KObj.dict [(104, KObj.leaf (KAct.act 0))])] = some es'
        ∧ resolveEnt [103, 104] es' = PathStatus.missing)
    ∧ unbindT [105] [(103, KObj.dict [(104, KObj.leaf (KAct.act 0))])]
        = some [(103, KObj.dict [(104, KObj.leaf (KAct.act 0))])] := by
  have hnd : ((([(103, KObj.dict [(104, KObj.leaf (KAct.act 0))])] :
      List (Int × KObj KAct)).map Prod.fst)).Nodup := by
    decide
  have hgood : ∀ p ∈ ([(103, KObj.dict [(104, KObj.leaf (KAct.act 0))])] :
      List (Int × KObj KAct)), GoodNode p.2 := by
    intro p hp
    simp only [List.mem_singleton] at hp
    subst hp
    refine GoodNode.dict _ (by simp) (by decide) ?_
    intro q hq
    simp only [List.mem_singleton] at hq
    subst hq
    exact GoodNode.leaf _
  constructor
  · exact (C1_unbind_behavior [103, 104] _ hnd hgood (by simp)).2.1
      (KObj.leaf (KAct.act 0)) rfl
  · exact (C1_unbind_behavior [105] _ hnd hgood (by simp)).1 rfl

/-- Counterexample for C1 as stated: after binding only `"g"`, unbinding
`"gg"` (a sequence extending past the existing leaf) is not a tolerated
no-op — the traversal raises a `TypeError` (`none`), through the public
`KeyMaps.unbind` entry point. -/
theorem C1_counterexample :
    kmUnbind (kmBind ⟨[], none⟩ "root" "g" (KObj.leaf (KAct.act 0))) "root" "gg" = none := rfl

/-- C9: binding a single three-symbol sequence into an empty context and
then unbinding that exact sequence leaves the trie root completely empty:
the leaf is removed and both now-empty intermediate nodes are pruned
bottom-up. -/
theorem C9_bind_then_unbind {α : Type} (a b c : Int) (v : KObj α) :
    unbindT [a, b, c] (trieBind [a, b, c] ([] : List (Int × KObj α)) v) = some [] := by
  simp [trieBind, dictLookup, dictInsert, unbindT, dictDelete, List.isEmpty]

/-- Keymaps state after binding `"gg"` to `A` and then `"g"` to `B` in
context `"root"`. -/
def kmGG {α : Type} (A B : KObj α) : KeyMapsT α :=
  kmBind (kmBind ⟨[], none⟩ "root" "gg" A) "root" "g" B

/-- C2 (amended): after binding `"gg"` to action `A` and then `"g"` to
action `B` in the same context, the later bind of `"g"` overwrites the whole
`"gg"` subtree (last-bind-wins at the root slot), so the context trie maps
`g` (103) directly to `B`; feeding a single `g` into a fresh buffer already
finishes parsing with result `B`, and the sequence `g, g` no longer resolves
at all (`A` can never be matched, so in particular never both `A` and `B`). -/
theorem C2_last_bind_wins (A : KObj KAct) (b : KAct) :
    ctxTrie (kmGG A (KObj.leaf b)) "root" = [(103, KObj.leaf b)]
    ∧ (addB (freshKB (ctxTrie (kmGG A (KObj.leaf b)) "root")) 103).1.result
        = some (KObj.leaf b)
    ∧ (addB (freshKB (ctxTrie (kmGG A (KObj.leaf b)) "root")) 103).1.finished_parsing = true
    ∧ (addB (freshKB (ctxTrie (kmGG A (KObj.leaf b)) "root")) 103).2 = false
    ∧ resolveEnt [103, 103] (ctxTrie (kmGG A (KObj.leaf b)) "root") = PathStatus.blocked :=
  ⟨rfl, rfl, rfl, rfl, rfl⟩

/-- Counterexample for C2 as stated: with `A := act 0` bound to `"gg"` and
`B := act 1` bound to `"g"` afterwards, the first `g` of a `g, g` input
already finishes parsing with result `B ≠ A` (so `A` is not the matched
action), and `[103, 103]` no longer resolves in the trie. -/
theorem C2_counterexample :
    (addB (freshKB (ctxTrie (kmGG (KObj.leaf (KAct.act 0)) (KObj.leaf (KAct.act 1))) "root")) 103).1.result
        = some (KObj.leaf (KAct.act 1))
    ∧ (addB (freshKB (ctxTrie (kmGG (KObj.leaf (KAct.act 0)) (KObj.leaf (KAct.act 1))) "root")) 103).1.finished_parsing
        = true
    ∧ KAct.act 1 ≠ KAct.act 0
    ∧ resolveEnt [103, 103] (ctxTrie (kmGG (KObj.leaf (KAct.act 0)) (KObj.leaf (KAct.act 1))) "root")
        = PathStatus.blocked :=
  ⟨rfl, rfl, by decide, rfl⟩

/-- Leaf test on a trie object. -/
def isLeafObj {α : Type} : KObj α → Bool
  | KObj.leaf _ => true
  | KObj.dict _ => false

/-- Invariant of reachable `KeyBuffer` states: a parse error implies parsing
finished; finished parsing implies finished quantifier parsing; and an
error-free finished parse carries a result with the pointer resting on the
matched leaf. -/
def InvKB (b : KB) : Prop :=
  (b.parse_error = true → b.finished_parsing = true)
  ∧ (b.finished_parsing = true → b.finished_parsing_quantifier = true)
  ∧ (b.finished_parsing = true → b.parse_error = false →
      b.result.isSome = true ∧ isLeafObj b.pointer = true)

/-- Buffer states reachable from a fresh buffer on a fixed keymap by
completed (non-raising) `add` calls. -/
inductive ReachKB (m : List (Int × KObj KAct)) : KB → Prop where
  | fresh : ReachKB m (freshKB m)
  | step (b : KB) (k : Int) (hb : ReachKB m b)
      (hok : (addB b k).2 = false) : ReachKB m (addB b k).1

theorem addB_preserves_inv (b : KB) (k : Int) (hInv : InvKB b)
    (hok : (addB b k).2 = false) : InvKB (addB b k).1 := by
  obtain ⟨h1, h2, h3⟩ := hInv
  by_cases hq : (!b.finished_parsing_quantifier && isDigitKey k) = true
  · simp only [Bool.and_eq_true, Bool.not_eq_true'] at hq
    have hnf : b.finished_parsing = false := by
      cases hfin : b.finished_parsing
      · rfl
      · rw [h2 hfin] at hq
        exact absurd hq.1 (by simp)
    have hne : b.parse_error = false := by
      cases herr : b.parse_error
      · rfl
      · rw [h1 herr] at hnf
        exact absurd hnf (by simp)
    simp only [addB, hq.1, hq.2, Bool.not_false, Bool.and_self, if_true]
    exact ⟨fun hc => absurd hc (by simp [hne]), fun hc => absurd hc (by simp [hnf]),
      fun hc => absurd hc (by simp [hnf])⟩
  · have hq' : (!b.finished_parsing_quantifier && isDigitKey k) = false := by
      cases h : (!b.finished_parsing_quantifier && isDigitKey k)
      · rfl
      · exact absurd h hq
    simp only [addB, hq', Bool.false_eq_true, if_false] at hok ⊢
    cases hp : b.pointer with
    | leaf a => simp [hp] at hok
    | dict es =>
      simp only [hp] at hok ⊢
      cases hl : dictLookup es k with
      | some child =>
        simp only [hl] at hok ⊢
        cases child with
        | dict es' =>
          refine ⟨h1, fun _ => rfl, fun hf he => ?_⟩
          exfalso
          have hlf := (h3 hf he).2
          rw [hp] at hlf
          exact absurd hlf (by simp [isLeafObj])
        | leaf a =>
          exact ⟨fun _ => rfl, fun _ => rfl, fun _ _ => ⟨rfl, rfl⟩⟩
      | none =>
        simp only [hl] at hok ⊢
        cases hl2 : dictLookup es 9001 with
        | some child =>
          simp only [hl2] at hok ⊢
          by_cases h27 : k = 27
          · simp only [h27, if_true, if_pos rfl]
            exact ⟨fun _ => rfl, fun _ => rfl, fun _ he => absurd he (by simp)⟩
          · simp only [if_neg h27]
            cases child with
            | dict es' =>
              refine ⟨h1, fun _ => rfl, fun hf he => ?_⟩
              exfalso
              have hlf := (h3 hf he).2
              rw [hp] at hlf
              exact absurd hlf (by simp [isLeafObj])
            | leaf a =>
              exact ⟨fun _ => rfl, fun _ => rfl, fun _ _ => ⟨rfl, rfl⟩⟩
        | none =>
          simp only [hl2] at hok ⊢
          exact ⟨fun _ => rfl, fun _ => rfl, fun _ he => absurd he (by simp)⟩

theorem reachKB_inv (m : List (Int × KObj KAct)) (b : KB)
    (h : ReachKB m b) : InvKB b := by
  induction h with
  | fresh =>
    exact ⟨fun hc => absurd hc (by simp [freshKB]),
      fun hc => absurd hc (by simp [freshKB]),
      fun hc => absurd hc (by simp [freshKB])⟩
  | step b k hb hok ih => exact addB_preserves_inv b k ih hok

/-- C3 (amended): in every buffer state reachable by completed `add` calls,
parsing-finished implies that a result is set or the parse-error flag is
set, and a parse error implies parsing-finished; the converse of the first
implication fails (a `PASSIVE_ACTION` leaf exposes a pending result while
parsing is not finished), so the claimed equivalence does not hold. -/
theorem C3_flags (m : List (Int × KObj KAct)) (b : KB) (h : ReachKB m b) :
    (b.finished_parsing = true → b.result.isSome = true ∨ b.parse_error = true)
    ∧ (b.parse_error = true → b.finished_parsing = true) := by
  obtain ⟨h1, h2, h3⟩ := reachKB_inv m b h
  refine ⟨?_, h1⟩
  intro hf
  cases he : b.parse_error
  · exact Or.inl (h3 hf he).1
  · exact Or.inr rfl

/-- Witness for C3: the state after feeding the bound key 113 to a fresh
buffer is reachable, and the implications hold there. -/
theorem C3_flags_witness :
    ((addB (freshKB [(113, KObj.leaf (KAct.act 0))]) 113).1.finished_parsing = true →
      (addB (freshKB [(113, KObj.leaf (KAct.act 0))]) 113).1.result.isSome = true
      ∨ (addB (freshKB [(113, KObj.leaf (KAct.act 0))]) 113).1.parse_error = true)
    ∧ ((addB (freshKB [(113, KObj.leaf (KAct.act 0))]) 113).1.parse_error = true →
      (addB (freshKB [(113, KObj.leaf (KAct.act 0))]) 113).1.finished_parsing = true) :=
  C3_flags _ _ (ReachKB.step _ 113 ReachKB.fresh rfl)

/-- Keymap with a passive binding: `"g<bg>"` bound (a `PASSIVE_ACTION` leaf
under `g`) together with the longer binding `"gh"`. -/
def passiveTrie : List (Int × KObj KAct) :=
  ctxTrie (kmBind (kmBind ⟨[], none⟩ "root" "g<bg>" (KObj.leaf (KAct.act 0)))
    "root" "gh" (KObj.leaf (KAct.act 1))) "root"

/-- Counterexample for C3 as stated: after consuming `g` on the passive
keymap, the reachable buffer state has a result set while parsing-finished
is still false, refuting the claimed `iff`. -/
theorem C3_counterexample :
    ReachKB passiveTrie (addB (freshKB passiveTrie) 103).1
    ∧ (addB (freshKB passiveTrie) 103).1.result = some (KObj.leaf (KAct.act 0))
    ∧ (addB (freshKB passiveTrie) 103).1.finished_parsing = false :=
  ⟨ReachKB.step _ 103 ReachKB.fresh rfl, rfl, rfl⟩

/-- C7: `use_keymap` on the name that is already the used one keeps every
accumulated buffer field (consumed keys, wildcards, trie pointer, pending
result, quantifier and all three flags) unchanged, only re-pointing the
`keymap` field; `use_keymap` on a different name resets the buffer to a
fresh one on the looked-up context (an empty dict when the context is
absent). -/
theorem C7_use_keymap (km : KeyMapsT KAct) (buf : KB) (name : String) :
    (km.used_keymap = some name →
      (useKeymap km buf name).2.keys = buf.keys
      ∧ (useKeymap km buf name).2.wildcards = buf.wildcards
      ∧ (useKeymap km buf name).2.pointer = buf.pointer
      ∧ (useKeymap km buf name).2.result = buf.result
      ∧ (useKeymap km buf name).2.quantifier = buf.quantifier
      ∧ (useKeymap km buf name).2.finished_parsing_quantifier
          = buf.finished_parsing_quantifier
      ∧ (useKeymap km buf name).2.finished_parsing = buf.finished_parsing
      ∧ (useKeymap km buf name).2.parse_error = buf.parse_error)
    ∧ (km.used_keymap ≠ some name →
      (useKeymap km buf name).2
        = freshKB ((dictLookup km.contexts name).getD [])) := by
  constructor
  · intro h
    simp [useKeymap, h]
  · intro h
    simp [useKeymap, h]

/-- Witness for C7: re-activating the active context `"root"` mid-sequence
keeps the consumed key `[103]`, while activating `"root"` when `"other"` was
active resets the buffer. -/
theorem C7_use_keymap_witness :
    (useKeymap ⟨[("root", [(113, KObj.leaf (KAct.act 0))])], some "root"⟩
        { freshKB [] with keys := [103], quantifier := some 3 } "root").2.keys = [103]
    ∧ (useKeymap ⟨[("root", [(113, KObj.leaf (KAct.act 0))])], some "other"⟩
        { freshKB [] with keys := [103], quantifier := some 3 } "root").2
      = freshKB [(113, KObj.leaf (KAct.act 0))] := by
  constructor
  · exact ((C7_use_keymap ⟨[("root", [(113, KObj.leaf (KAct.act 0))])], some "root"⟩
      { freshKB [] with keys := [103], quantifier := some 3 } "root").1 rfl).1
  · exact (C7_use_keymap ⟨[("root", [(113, KObj.leaf (KAct.act 0))])], some "other"⟩
      { freshKB [] with keys := [103], quantifier := some 3 } "root").2 (by decide)

/-- C8: with quantifiers enabled, feeding the digits `1`, `2` and then a
non-digit key bound to a leaf accumulates the quantifier to 12 in base 10
(an unset quantifier counting as 0) and matches the key's action with that
quantifier available; with quantifiers disabled by an
`allow_quantifiers = 'false'` entry, a digit key bound in the trie is
matched as an ordinary key and no quantifier accumulates. -/
theorem C8_quantifier (m m' : List (Int × KObj KAct)) (k d : Int) (a a' : KAct)
    (hq : quantDisabled m = false)
    (hk : isDigitKey k = false)
    (hl : dictLookup m k = some (KObj.leaf a))
    (hq' : quantDisabled m' = true)
    (hd : isDigitKey d = true)
    (hl' : dictLookup m' d = some (KObj.leaf a')) :
    ((addB ((addB ((addB (freshKB m) 49).1) 50).1) k).1.result = some (KObj.leaf a)
      ∧ (addB ((addB ((addB (freshKB m) 49).1) 50).1) k).1.quantifier = some 12
      ∧ (addB ((addB ((addB (freshKB m) 49).1) 50).1) k).1.finished_parsing = true)
    ∧ ((addB (freshKB m') d).1.result = some (KObj.leaf a')
      ∧ (addB (freshKB m') d).1.quantifier = none
      ∧ (addB (freshKB m') d).1.finished_parsing = true) := by
  have e1 : addB (freshKB m) 49 =
      ({ keymap := m, keys := [49], wildcards := [], pointer := KObj.dict m,
         result := none, quantifier := some 1, finished_parsing_quantifier := false,
         finished_parsing := false, parse_error := false }, false) := by
    simp [addB, freshKB, hq, isDigitKey]
  have e2 : addB
      ({ keymap := m, keys := [49], wildcards := [], pointer := KObj.dict m,
         result := none, quantifier := some 1, finished_parsing_quantifier := false,
         finished_parsing := false, parse_error := false } : KB) 50 =
      ({ keymap := m, keys := [49, 50], wildcards := [], pointer := KObj.dict m,
         result := none, quantifier := some 12, finished_parsing_quantifier := false,
         finished_parsing := false, parse_error := false }, false) := by
    simp [addB, isDigitKey]
  have e3 : addB
      ({ keymap := m, keys := [49, 50], wildcards := [], pointer := KObj.dict m,
         result := none, quantifier := some 12, finished_parsing_quantifier := false,
         finished_parsing := false, parse_error := false } : KB) k =
      ({ keymap := m, keys := [49, 50, k], wildcards := [], pointer := KObj.leaf a,
         result := some (KObj.leaf a), quantifier := some 12,
         finished_parsing_quantifier := true,
         finished_parsing := true, parse_error := false }, false) := by
    simp [addB, hk, hl, afterMove]
  have f1 : addB (freshKB m') d =
      ({ keymap := m', keys := [d], wildcards := [], pointer := KObj.leaf a',
         result := some (KObj.leaf a'), quantifier := none,
         finished_parsing_quantifier := true,
         finished_parsing := true, parse_error := false }, false) := by
    simp [addB, freshKB, hq', hl', afterMove]
  rw [e1]
  simp [e2, e3, f1]

/-- Witness for C8: `k` (107) bound in a quantifier-enabled keymap matched
after digits `1`, `2` with quantifier 12; the digit key `1` (49) bound in a
quantifier-disabled keymap matched directly. -/
theorem C8_quantifier_witness :
    ((addB ((addB ((addB (freshKB [(107, KObj.leaf (KAct.act 5))]) 49).1) 50).1) 107).1.result
        = some (KObj.leaf (KAct.act 5))
      ∧ (addB ((addB ((addB (freshKB [(107, KObj.leaf (KAct.act 5))]) 49).1) 50).1) 107).1.quantifier
        = some 12
      ∧ (addB ((addB ((addB (freshKB [(107, KObj.leaf (KAct.act 5))]) 49).1) 50).1) 107).1.finished_parsing
        = true)
    ∧ ((addB (freshKB [(9004, KObj.leaf (KAct.str "false")), (49, KObj.leaf (KAct.act 3))]) 49).1.result
        = some (KObj.leaf (KAct.act 3))
      ∧ (addB (freshKB [(9004, KObj.leaf (KAct.str "false")), (49, KObj.leaf (KAct.act 3))]) 49).1.quantifier
        = none
      ∧ (addB (freshKB [(9004, KObj.leaf (KAct.str "false")), (49, KObj.leaf (KAct.act 3))]) 49).1.finished_parsing
        = true) :=
  C8_quantifier [(107, KObj.leaf (KAct.act 5))]
    [(9004, KObj.leaf (KAct.str "false")), (49, KObj.leaf (KAct.act 3))]
    107 49 (KAct.act 5) (KAct.act 3) rfl rfl rfl rfl rfl rfl

/-- C10: when a consumed key yields a result with parsing finished, the
`finally` block of `Top.press` clears the buffer no matter what the invoked
action does — `run` ranges over all action behaviors, including raising the
`BreakLoop` loop-termination signal or any other exception — so the next
dispatch starts from a fresh buffer with no consumed keys. -/
theorem C10_press_clears (run : KObj KAct → Except PyExc Unit) (b : KB) (k : Int)
    (hok : (addB b k).2 = false)
    (hres : (addB b k).1.result.isSome = true)
    (hfin : (addB b k).1.finished_parsing = true) :
    (pressT run b k).2 = freshKB (addB b k).1.keymap
    ∧ (pressT run b k).2.keys = [] := by
  rcases h : addB b k with ⟨b1, crashed⟩
  rw [h] at hok hres hfin
  simp only at hok hres hfin
  subst hok
  cases hr : b1.result with
  | none => rw [hr] at hres; exact absurd hres (by simp)
  | some r =>
    have hpress : pressT run b k =
        (match run r with
         | Except.ok _ => Except.ok true
         | Except.error e => Except.error e, freshKB b1.keymap) := by
      simp [pressT, h, hr, hfin]
    rw [hpress]
    exact ⟨rfl, rfl⟩

/-- Witness for C10: pressing the bound key `q` (113) whose action raises
`BreakLoop` still leaves a cleared buffer behind. -/
theorem C10_press_clears_witness :
    (pressT (fun _ => Except.error PyExc.breakLoop)
        (freshKB [(113, KObj.leaf (KAct.act 0))]) 113).2
      = freshKB (addB (freshKB [(113, KObj.leaf (KAct.act 0))]) 113).1.keymap
    ∧ (pressT (fun _ => Except.error PyExc.breakLoop)
        (freshKB [(113, KObj.leaf (KAct.act 0))]) 113).2.keys = [] :=
  C10_press_clears _ _ _ rfl rfl rfl

/-- Divergence of two key sequences: they differ at some position before
either sequence ends (equivalently, neither is a prefix of the other). -/
def divergesB : List Int → List Int → Bool
  | x :: xs, y :: ys => if x = y then divergesB xs ys else true
  | _, _ => false

theorem divergesB_ne_nil {xs ys : List Int} (h : divergesB xs ys = true) :
    xs ≠ [] ∧ ys ≠ [] := by
  cases xs with
  | nil => simp [divergesB] at h
  | cons x xs' =>
    cases ys with
    | nil => simp [divergesB] at h
    | cons y ys' => exact ⟨by simp, by simp⟩

theorem resolveEnt_congr_head {α : Type} (k : Int) (rest : List Int)
    (es es' : List (Int × KObj α)) (h : dictLookup es k = dictLookup es' k) :
    resolveEnt (k :: rest) es = resolveEnt (k :: rest) es' := by
  cases hl : dictLookup es k with
  | none =>
    have hl2 : dictLookup es' k = none := by rw [← h]; exact hl
    simp [resolveEnt, hl, hl2]
  | some child =>
    have hl' : dictLookup es' k = some child := by rw [← h, hl]
    cases rest with
    | nil => simp [resolveEnt, hl, hl']
    | cons k2 rest' =>
      cases child with
      | leaf a => simp [resolveEnt, hl, hl']
      | dict ces => simp [resolveEnt, hl, hl']

theorem resolveEnt_trieBind_self {α : Type} :
    ∀ (ks : List Int) (es : List (Int × KObj α)) (v : KObj α), ks ≠ [] →
      resolveEnt ks (trieBind ks es v) = PathStatus.found v := by
  intro ks
  induction ks with
  | nil => intro es v h; exact absurd rfl h
  | cons k rest ih =>
    intro es v _
    cases rest with
    | nil => simp [trieBind, resolveEnt, dictLookup_insert_self]
    | cons k2 rest' =>
      cases hl : dictLookup es k with
      | none =>
        simp only [trieBind, hl]
        simp [resolveEnt, dictLookup_insert_self, ih _ v (by simp)]
      | some child =>
        cases child with
        | leaf a =>
          simp only [trieBind, hl]
          simp [resolveEnt, dictLookup_insert_self, ih _ v (by simp)]
        | dict ces =>
          simp only [trieBind, hl]
          simp [resolveEnt, dictLookup_insert_self, ih _ v (by simp)]

theorem resolveEnt_bind_divergent {α : Type} :
    ∀ (ku kt : List Int) (es : List (Int × KObj α)) (B : KObj α) (o : KObj α),
      divergesB ku kt = true →
      resolveEnt kt es = PathStatus.found o →
      resolveEnt kt (trieBind ku es B) = PathStatus.found o := by
  intro ku
  induction ku with
  | nil =>
    intro kt es B o hdiv
    simp [divergesB] at hdiv
  | cons u us ih =>
    intro kt es B o hdiv hres
    cases kt with
    | nil => simp [divergesB] at hdiv
    | cons t ts =>
      by_cases hut : u = t
      · subst hut
        simp only [divergesB, if_pos rfl] at hdiv
        obtain ⟨hus, hts⟩ := divergesB_ne_nil hdiv
        cases hts2 : ts with
        | nil => exact absurd hts2 hts
        | cons t2 ts' =>
          subst hts2
          cases hl : dictLookup es u with
          | none => simp [resolveEnt, hl] at hres
          | some child =>
            cases child with
            | leaf a => simp [resolveEnt, hl] at hres
            | dict ces =>
              have hres' : resolveEnt (t2 :: ts') ces = PathStatus.found o := by
                simpa [resolveEnt, hl] using hres
              cases hus2 : us with
              | nil => exact absurd hus2 hus
              | cons u2 us' =>
                subst hus2
                simp only [trieBind, hl]
                rw [resolveEnt_congr_head u (t2 :: ts') _ (dictInsert es u (KObj.dict (trieBind (u2 :: us') ces B))) rfl]
                simp [resolveEnt, dictLookup_insert_self, ih _ _ _ _ hdiv hres']
      · have hne : u ≠ t := hut
        have hlookup : dictLookup (trieBind (u :: us) es B) t = dictLookup es t := by
          cases us with
          | nil => simp [trieBind, dictLookup_insert_other _ _ _ _ hne]
          | cons u2 us' =>
            cases hl : dictLookup es u with
            | none => simp [trieBind, hl, dictLookup_insert_other _ _ _ _ hne]
            | some child =>
              cases child with
              | leaf a => simp [trieBind, hl, dictLookup_insert_other _ _ _ _ hne]
              | dict ces => simp [trieBind, hl, dictLookup_insert_other _ _ _ _ hne]
        rw [resolveEnt_congr_head t ts _ es hlookup]
        exact hres

theorem walkObj_of_missing {α : Type} :
    ∀ (ks : List Int) (es : List (Int × KObj α)),
      resolveEnt ks es = PathStatus.missing →
      walkObj ks (KObj.dict es) = Except.error CopyErr.notFound := by
  intro ks
  induction ks with
  | nil => intro es h; simp [resolveEnt] at h
  | cons k rest ih =>
    intro es h
    cases hl : dictLookup es k with
    | none => simp [walkObj, hl]
    | some child =>
      cases rest with
      | nil => simp [resolveEnt, hl] at h
      | cons k2 rest' =>
        cases child with
        | leaf a => simp [resolveEnt, hl] at h
        | dict ces =>
          have h' : resolveEnt (k2 :: rest') ces = PathStatus.missing := by
            simpa [resolveEnt, hl] using h
          have hstep : walkObj (k :: k2 :: rest') (KObj.dict es)
              = walkObj (k2 :: rest') (KObj.dict ces) := by
            simp [walkObj, hl]
          rw [hstep]
          exact ih ces h'

theorem ctxTrie_ensure {α : Type} (km : KeyMapsT α) (c : String) :
    ctxTrie (ensureCtx km c) c = ctxTrie km c := by
  simp [ctxTrie, ensureCtx, dictLookup_insert_self]

theorem ctxTrie_kmBind {α : Type} (km : KeyMapsT α) (c keys : String)
    (leaf : KObj α) :
    ctxTrie (kmBind km c keys leaf) c =
      if (cleanKeys keys).isEmpty then ctxTrie km c
      else trieBind (cleanKeys keys) (ctxTrie km c) leaf := by
  by_cases h : (cleanKeys keys).isEmpty
  · simp [kmBind, h, ctxTrie, ensureCtx, dictLookup_insert_self]
  · simp only [kmBind, h, Bool.false_eq_true, if_false]
    simp [ctxTrie, ensureCtx, dictLookup_insert_self, h]

/-- C6 (amended): aliasing a source binding whose resolution hits a missing
key fails with the "binding not found" error; and after a successful alias,
provided the source and target sequences diverge (neither is a prefix of the
other), any later rebinding of the source leaves the resolution of the
aliased target unchanged — the bound subtree is an independent deep copy.
Without the divergence proviso the claim fails (see the counterexample:
aliasing `"g"` to `"gg"` and rebinding `"g"` destroys the target). -/
theorem C6_alias {α : Type} (km : KeyMapsT α) (context source target : String) :
    (resolveEnt (cleanKeys source) (ctxTrie km context) = PathStatus.missing →
      source ≠ "" →
      kmCopy km context source target = Except.error CopyErr.notFound)
    ∧ (∀ km1, kmCopy km context source target = Except.ok km1 →
        divergesB (cleanKeys source) (cleanKeys target) = true →
        ∀ B, resolveEnt (cleanKeys target)
              (ctxTrie (kmBind km1 context source B) context)
            = resolveEnt (cleanKeys target) (ctxTrie km1 context)) := by
  constructor
  · intro hmiss hsrc
    simp only [kmCopy, if_neg hsrc]
    rw [walkObj_of_missing _ _ hmiss]
  · intro km1 hok hdiv B
    obtain ⟨hsne, htne⟩ := divergesB_ne_nil hdiv
    have hsrc : source ≠ "" := by
      intro h
      subst h
      exact hsne rfl
    simp only [kmCopy, if_neg hsrc] at hok
    cases hw : walkObj (cleanKeys source) (KObj.dict (ctxTrie km context)) with
    | error e => rw [hw] at hok; cases hok
    | ok o =>
      rw [hw] at hok
      simp only [Except.ok.injEq] at hok
      subst hok
      have hsemp : (cleanKeys source).isEmpty = false := by
        cases h : cleanKeys source
        · exact absurd h hsne
        · rfl
      have htemp : (cleanKeys target).isEmpty = false := by
        cases h : cleanKeys target
        · exact absurd h htne
        · rfl
      have ht1 : ctxTrie (kmBind (ensureCtx km context) context target o) context
          = trieBind (cleanKeys target) (ctxTrie km context) o := by
        rw [ctxTrie_kmBind]
        simp [htemp, ctxTrie_ensure]
      have hfound : resolveEnt (cleanKeys target)
          (ctxTrie (kmBind (ensureCtx km context) context target o) context)
          = PathStatus.found o := by
        rw [ht1]
        exact resolveEnt_trieBind_self _ _ _ htne
      have ht2 : ctxTrie (kmBind (kmBind (ensureCtx km context) context target o)
            context source B) context
          = trieBind (cleanKeys source)
              (ctxTrie (kmBind (ensureCtx km context) context target o) context) B := by
        rw [ctxTrie_kmBind]
        simp [hsemp]
      rw [ht2, hfound, resolveEnt_bind_divergent _ _ _ _ _ hdiv hfound]

/-- Keymaps state with `"ab"` bound in context `"root"`, the base state of
the C6 witness. -/
def kmW : KeyMapsT KAct := kmBind ⟨[], none⟩ "root" "ab" (KObj.leaf (KAct.act 0))

/-- Witness for C6: aliasing the unbound source `"zz"` fails with the
not-found error, and after aliasing `"ab"` to the divergent target `"cd"`,
rebinding `"ab"` leaves the resolution of `"cd"` unchanged. -/
theorem C6_alias_witness :
    kmCopy kmW "root" "zz" "x" = Except.error CopyErr.notFound
    ∧ (∀ B, resolveEnt (cleanKeys "cd")
          (ctxTrie (kmBind (kmBind (ensureCtx kmW "root") "root" "cd"
              (KObj.leaf (KAct.act 0))) "root" "ab" B) "root")
        = resolveEnt (cleanKeys "cd")
            (ctxTrie (kmBind (ensureCtx kmW "root") "root" "cd"
              (KObj.leaf (KAct.act 0))) "root")) := by
  constructor
  · exact (C6_alias kmW "root" "zz" "x").1 rfl (by decide)
  · exact (C6_alias kmW "root" "ab" "cd").2 _ rfl (by decide)

/-- Counterexample for C6 as stated (no prefix proviso): bind `"g"`, alias
it to `"gg"` — the target then resolves to the copied action — and rebind
the source `"g"`: the target `"gg"` no longer resolves at all (the rebind
replaced the node holding it), so mutating the source did change the
behavior of the aliased target. -/
theorem C6_counterexample :
    (kmCopy (kmBind ⟨[], none⟩ "root" "g" (KObj.leaf (KAct.act 0))) "root" "g" "gg").map
        (fun km1 => resolveEnt [103, 103] (ctxTrie km1 "root"))
      = Except.ok (PathStatus.found (KObj.leaf (KAct.act 0)))
    ∧ (kmCopy (kmBind ⟨[], none⟩ "root" "g" (KObj.leaf (KAct.act 0))) "root" "g" "gg").map
        (fun km1 => resolveEnt [103, 103]
          (ctxTrie (kmBind km1 "root" "g" (KObj.leaf (KAct.act 1))) "root"))
      = Except.ok PathStatus.blocked :=
  ⟨rfl, rfl⟩

theorem parseGo_no_lt :
    ∀ (l : List Char) (content : List Char), (∀ c ∈ l, c ≠ '<') →
      parseGo l false content = l.map charOrd := by
  intro l
  induction l with
  | nil => intro content _; simp [parseGo]
  | cons c cs ih =>
    intro content h
    have hc : c ≠ '<' := h c (List.mem_cons_self _ _)
    simp only [parseGo, if_neg hc, List.map_cons]
    rw [ih content (fun c' hc' => h c' (List.mem_cons_of_mem _ hc'))]

theorem keyChars_charOrd (c : Char) (h1 : 33 ≤ c.toNat) (h2 : c.toNat ≤ 126) :
    keyChars (charOrd c) = [c] := by
  unfold keyChars charOrd
  rw [if_pos]
  · simp [Char.ofNat_toNat]
  · constructor
    · exact_mod_cast h1
    · exact_mod_cast Nat.lt_succ_of_le h2

theorem flatMap_keyChars_map_charOrd :
    ∀ l : List Char, (∀ c ∈ l, 33 ≤ c.toNat ∧ c.toNat ≤ 126) →
      (l.map charOrd).flatMap keyChars = l := by
  intro l
  induction l with
  | nil => intro _; rfl
  | cons c cs ih =>
    intro h
    have hc := h c (List.mem_cons_self _ _)
    simp only [List.map_cons, List.flatMap_cons, keyChars_charOrd c hc.1 hc.2]
    rw [ih (fun c' hc' => h c' (List.mem_cons_of_mem _ hc'))]
    rfl

/-- C4 (amended): for texts made only of characters with codes 33..126 and
containing neither `<` nor `>`, `construct_keybinding` of `parse_keybinding`
reproduces the text exactly.  (The restriction to codes 33..126 is forced:
ASCII codes below 33 unparse to bracketed names, see the counterexample.) -/
theorem C4_roundtrip (s : String)
    (h : ∀ c ∈ s.toList, 33 ≤ c.toNat ∧ c.toNat ≤ 126 ∧ c ≠ '<' ∧ c ≠ '>') :
    construct_keybinding (parse_keybinding s) = s := by
  obtain ⟨l⟩ := s
  have hl : (String.mk l).toList = l := rfl
  rw [hl] at h
  unfold construct_keybinding parse_keybinding
  rw [hl, parseGo_no_lt l [] (fun c hc => (h c hc).2.2.1)]
  rw [flatMap_keyChars_map_charOrd l (fun c hc => ⟨(h c hc).1, (h c hc).2.1⟩)]

/-- Witness for C4: the bracket-free printable text `"abc"` roundtrips. -/
theorem C4_roundtrip_witness :
    construct_keybinding (parse_keybinding "abc") = "abc" :=
  C4_roundtrip "abc" (by decide)

/-- Counterexample for C4 as stated: a single space is ASCII text with no
brackets, but it unparses to the canonical bracketed name `"<space>"`, not
to `" "`. -/
theorem C4_counterexample :
    construct_keybinding (parse_keybinding " ") = "<space>"
    ∧ ("<space>" : String) ≠ " " :=
  ⟨rfl, by decide⟩

set_option maxRecDepth 10000

theorem char_toNat_ofNat (n : Nat) (h : n < 55296) : (Char.ofNat n).toNat = n := by
  unfold Char.ofNat
  rw [dif_pos (Or.inl h)]
  rfl

theorem natToCharsAux_spec :
    ∀ (fuel n : Nat), n < fuel →
      (∀ c ∈ natToCharsAux fuel n, 48 ≤ c.toNat ∧ c.toNat ≤ 57)
      ∧ natToCharsAux fuel n ≠ []
      ∧ ∀ a : Nat, (natToCharsAux fuel n).foldl (fun a c => a * 10 + (c.toNat - 48)) a
          = a * 10 ^ (natToCharsAux fuel n).length + n := by
  intro fuel
  induction fuel with
  | zero => intro n h; omega
  | succ fuel ih =>
    intro n h
    by_cases h10 : n < 10
    · have hd : (digitChar n).toNat = 48 + n := by
        unfold digitChar
        rw [char_toNat_ofNat _ (by omega)]
      refine ⟨?_, ?_, ?_⟩
      · intro c hc
        simp only [natToCharsAux, if_pos h10, List.mem_singleton] at hc
        subst hc
        omega
      · simp [natToCharsAux, h10]
      · intro a
        simp only [natToCharsAux, if_pos h10, List.foldl_cons, List.foldl_nil,
          List.length_singleton, pow_one, hd]
        omega
    · have hlt : n / 10 < n := Nat.div_lt_self (by omega) (by omega)
      have hfuel : n / 10 < fuel := by omega
      obtain ⟨hdig, hne, hfold⟩ := ih (n / 10) hfuel
      have hmod : n % 10 < 10 := Nat.mod_lt _ (by omega)
      have hd : (digitChar (n % 10)).toNat = 48 + n % 10 := by
        unfold digitChar
        rw [char_toNat_ofNat _ (by omega)]
      have heq : natToCharsAux (fuel + 1) n
          = natToCharsAux fuel (n / 10) ++ [digitChar (n % 10)] := by
        simp [natToCharsAux, h10]
      refine ⟨?_, ?_, ?_⟩
      · intro c hc
        rw [heq] at hc
        rcases List.mem_append.mp hc with hc | hc
        · exact hdig c hc
        · simp only [List.mem_singleton] at hc
          subst hc
          omega
      · rw [heq]
        simp
      · intro a
        rw [heq, List.foldl_append, hfold a, List.length_append]
        simp only [List.foldl_cons, List.foldl_nil, List.length_singleton, hd]
        have hcancel : 48 + n % 10 - 48 = n % 10 := by omega
        rw [hcancel, pow_succ]
        calc (a * 10 ^ (natToCharsAux fuel (n / 10)).length + n / 10) * 10 + n % 10
            = a * (10 ^ (natToCharsAux fuel (n / 10)).length * 10)
              + (10 * (n / 10) + n % 10) := by ring
          _ = a * (10 ^ (natToCharsAux fuel (n / 10)).length * 10) + n := by
              rw [Nat.div_add_mod]

theorem natToChars_digits (n : Nat) :
    ∀ c ∈ natToChars n, 48 ≤ c.toNat ∧ c.toNat ≤ 57 :=
  (natToCharsAux_spec (n + 1) n (by omega)).1

theorem natToChars_ne_nil (n : Nat) : natToChars n ≠ [] :=
  (natToCharsAux_spec (n + 1) n (by omega)).2.1

theorem charsToNat_natToChars (n : Nat) : charsToNat (natToChars n) = n := by
  have h := (natToCharsAux_spec (n + 1) n (by omega)).2.2 0
  unfold charsToNat natToChars
  rw [h]
  simp

theorem isDigitsStr_natToChars (n : Nat) : isDigitsStr (natToChars n) = true := by
  unfold isDigitsStr
  have hne : (natToChars n).isEmpty = false := by
    cases h : natToChars n
    · exact absurd h (natToChars_ne_nil n)
    · rfl
  rw [hne]
  simp only [Bool.not_false, Bool.true_and, List.all_eq_true]
  intro c hc
  have := natToChars_digits n c hc
  simp only [Bool.and_eq_true, decide_eq_true_eq]
  omega

theorem lowerChar_of_not_upper (c : Char) (h : ¬(65 ≤ c.toNat ∧ c.toNat ≤ 90)) :
    lowerChar c = c := by
  unfold lowerChar
  rw [if_neg h]

theorem normalizeBracket_digits (l : List Char)
    (h : ∀ c ∈ l, 48 ≤ c.toNat ∧ c.toNat ≤ 57) : normalizeBracket l = l := by
  have hlow : ∀ c ∈ l, lowerChar c = c := by
    intro c hc
    exact lowerChar_of_not_upper c (by have := h c hc; omega)
  have hmap : l.map lowerChar = l := by
    conv_rhs => rw [← List.map_id l]
    exact List.map_congr_left hlow
  match l, h, hlow, hmap with
  | [], _, _, _ => rfl
  | [c1], _, _, hmap => simpa [normalizeBracket] using hmap
  | [c1, c2], _, _, hmap => simpa [normalizeBracket] using hmap
  | [c1, c2, c3], h, hlow, hmap =>
    have h1 := hlow c1 (by simp)
    have h2 := hlow c2 (by simp)
    have h3 := hlow c3 (by simp)
    have hc1 : lowerChar c1 ≠ 'a' := by
      rw [h1]
      intro hh
      have := (h c1 (by simp)).2
      rw [hh] at this
      simp at this
    have hc1' : lowerChar c1 ≠ 'c' := by
      rw [h1]
      intro hh
      have := (h c1 (by simp)).2
      rw [hh] at this
      simp at this
    simp only [normalizeBracket]
    rw [if_neg (by rintro ⟨hh, _⟩; rcases hh with hh | hh
                   · exact hc1 hh
                   · exact hc1' hh)]
    rw [h1, h2, h3]
  | c1 :: c2 :: c3 :: c4 :: l', _, _, hmap => simpa [normalizeBracket] using hmap

theorem specialKeysNotDigits :
    specialKeys.all (fun p => !(isDigitsStr p.1.toList)) = true := by decide

theorem revOK :
    revPairs.all (fun p =>
      decide (bracketEmit p.2.toList = [p.1])
      && p.2.toList.all (fun c => !(c == '>'))) = true := by decide

theorem specialValsOK :
    specialKeys.all (fun p =>
      match p.2 with
      | KeyVal.i k => decide (-1 ≤ k)
      | KeyVal.pair a b => decide (-1 ≤ a) && decide (-1 ≤ b)) = true := by decide

theorem revLookup_neg_one : revLookup (-1) = some "c-_" := by decide

theorem specialLookup_digits_none (l : List Char) (h : isDigitsStr l = true) :
    specialLookup (String.mk l) = none := by
  unfold specialLookup
  cases hf : specialKeys.find? (fun p => p.1 == String.mk l) with
  | none => rfl
  | some p =>
    exfalso
    have hmem := List.mem_of_find?_eq_some hf
    have hbeq := List.find?_some hf
    have hkey : p.1 = String.mk l := by
      exact eq_of_beq hbeq
    have hall := List.all_eq_true.mp specialKeysNotDigits p hmem
    rw [hkey] at hall
    have htl : (String.mk l).toList = l := rfl
    rw [htl] at hall
    rw [h] at hall
    simp at hall

theorem bracketEmit_natToChars (n : Nat) :
    bracketEmit (natToChars n) = [(n : Int)] := by
  simp only [bracketEmit, normalizeBracket_digits _ (natToChars_digits n)]
  rw [specialLookup_digits_none _ (isDigitsStr_natToChars n),
    isDigitsStr_natToChars n]
  simp [charsToNat_natToChars]

theorem parseGo_bracket :
    ∀ (nm : List Char) (rest content : List Char), (∀ c ∈ nm, c ≠ '>') →
      parseGo (nm ++ '>' :: rest) true content
        = bracketEmit (content ++ nm) ++ parseGo rest false [] := by
  intro nm
  induction nm with
  | nil =>
    intro rest content _
    simp [parseGo]
  | cons c nm' ih =>
    intro rest content h
    have hc : c ≠ '>' := h c (List.mem_cons_self _ _)
    simp only [List.cons_append, parseGo, if_neg hc, List.append_eq]
    rw [ih rest (content ++ [c]) (fun c' hc' => h c' (List.mem_cons_of_mem _ hc'))]
    simp

theorem revLookup_mem_revPairs :
    ∀ (l : List (Int × String)) (acc : Option String) (k : Int) (name : String),
      l.foldl (fun acc p => if p.1 = k then some p.2 else acc) acc = some name →
      (k, name) ∈ l ∨ acc = some name := by
  intro l
  induction l with
  | nil => intro acc k name h; exact Or.inr h
  | cons p l' ih =>
    intro acc k name h
    simp only [List.foldl_cons] at h
    rcases ih _ k name h with hmem | hacc
    · exact Or.inl (List.mem_cons_of_mem _ hmem)
    · by_cases hp : p.1 = k
      · rw [if_pos hp] at hacc
        simp only [Option.some.injEq] at hacc
        left
        have : p = (k, name) := by
          obtain ⟨p1, p2⟩ := p
          simp only at hp hacc
          rw [hp, hacc]
        rw [← this]
        exact List.mem_cons_self _ _
      · rw [if_neg hp] at hacc
        exact Or.inr hacc

theorem revLookup_props (k : Int) (name : String) (h : revLookup k = some name) :
    bracketEmit name.toList = [k] ∧ ∀ c ∈ name.toList, c ≠ '>' := by
  have hmem : (k, name) ∈ revPairs := by
    rcases revLookup_mem_revPairs revPairs none k name h with hm | hacc
    · exact hm
    · cases hacc
  have hp := List.all_eq_true.mp revOK _ hmem
  simp only [Bool.and_eq_true, decide_eq_true_eq, List.all_eq_true] at hp
  refine ⟨hp.1, ?_⟩
  intro c hc
  have := hp.2 c hc
  simpa using this

theorem specialLookup_mem (s : String) (val : KeyVal)
    (h : specialLookup s = some val) : ∃ p ∈ specialKeys, p.2 = val := by
  unfold specialLookup at h
  cases hf : specialKeys.find? (fun p => p.1 == s) with
  | none => rw [hf] at h; cases h
  | some p =>
    rw [hf] at h
    simp only [Option.map_some', Option.some.injEq] at h
    exact ⟨p, List.mem_of_find?_eq_some hf, h⟩

theorem bracketEmit_ge (content : List Char) (x : Int)
    (hx : x ∈ bracketEmit content) : -1 ≤ x := by
  simp only [bracketEmit] at hx
  cases hl : specialLookup (String.mk (normalizeBracket content)) with
  | some val =>
    rw [hl] at hx
    obtain ⟨p, hp, hv⟩ := specialLookup_mem _ _ hl
    have hall := List.all_eq_true.mp specialValsOK p hp
    rw [hv] at hall
    cases val with
    | i k =>
      simp only [decide_eq_true_eq] at hall
      simp only [List.mem_singleton] at hx
      subst hx
      exact hall
    | pair a b =>
      simp only [Bool.and_eq_true, decide_eq_true_eq] at hall
      simp only [List.mem_cons, List.mem_singleton, List.not_mem_nil, or_false] at hx
      rcases hx with hx | hx <;> subst hx
      · exact hall.1
      · exact hall.2
  | none =>
    rw [hl] at hx
    by_cases hd : isDigitsStr (normalizeBracket content) = true
    · rw [if_pos hd] at hx
      simp only [List.mem_singleton] at hx
      subst hx
      omega
    · rw [if_neg hd] at hx
      rcases List.mem_cons.mp hx with hx | hx
      · subst hx; omega
      · rcases List.mem_append.mp hx with hx | hx
        · obtain ⟨c, _, rfl⟩ := List.mem_map.mp hx
          unfold charOrd
          omega
        · rw [List.mem_singleton] at hx
          subst hx
          omega

theorem parseGo_ge :
    ∀ (l : List Char) (b : Bool) (content : List Char) (x : Int),
      x ∈ parseGo l b content → -1 ≤ x := by
  intro l
  induction l with
  | nil =>
    intro b content x hx
    cases b with
    | false => simp [parseGo] at hx
    | true =>
      simp only [parseGo, List.mem_cons, List.mem_map] at hx
      rcases hx with hx | ⟨c, _, hc⟩
      · subst hx; omega
      · rw [← hc]; unfold charOrd; omega
  | cons c cs ih =>
    intro b content x hx
    cases b with
    | true =>
      by_cases hc : c = '>'
      · simp only [parseGo, if_pos hc, List.mem_append] at hx
        rcases hx with hx | hx
        · exact bracketEmit_ge _ _ hx
        · exact ih false [] x hx
      · simp only [parseGo, if_neg hc] at hx
        exact ih true _ x hx
    | false =>
      by_cases hc : c = '<'
      · simp only [parseGo, if_pos hc] at hx
        exact ih true [] x hx
      · simp only [parseGo, if_neg hc, List.mem_cons] at hx
        rcases hx with hx | hx
        · subst hx; unfold charOrd; omega
        · exact ih false content x hx

theorem parse_keyChars (k : Int) (rest : List Char) (hk : -1 ≤ k)
    (h60 : k ≠ 60) :
    parseGo (keyChars k ++ rest) false [] = k :: parseGo rest false [] := by
  by_cases hpr : 33 ≤ k ∧ k < 127
  · have hkc : keyChars k = [Char.ofNat k.toNat] := by
      unfold keyChars
      rw [if_pos hpr]
    rw [hkc]
    have hcn : (Char.ofNat k.toNat).toNat = k.toNat :=
      char_toNat_ofNat _ (by omega)
    have hne : Char.ofNat k.toNat ≠ '<' := by
      intro hh
      have h1 : (Char.ofNat k.toNat).toNat = 60 := by rw [hh]; rfl
      rw [hcn] at h1
      exact h60 (by omega)
    simp only [List.singleton_append, parseGo, if_neg hne]
    congr 1
    unfold charOrd
    rw [hcn]
    omega
  · cases hr : revLookup k with
    | some name =>
      obtain ⟨hbe, hgt⟩ := revLookup_props k name hr
      have hkc : keyChars k = '<' :: name.toList ++ ['>'] := by
        unfold keyChars
        rw [if_neg hpr, hr]
      rw [hkc]
      have hassoc : (('<' :: name.toList ++ ['>']) ++ rest)
          = '<' :: (name.toList ++ '>' :: rest) := by simp
      rw [hassoc]
      have hlt : ('<' : Char) = '<' := rfl
      simp only [parseGo, if_pos hlt]
      rw [parseGo_bracket name.toList rest [] hgt]
      have hbe2 : bracketEmit name.data = [k] := hbe
      simp [hbe2]
    | none =>
      have hkne : k ≠ -1 := by
        intro hh
        rw [hh, revLookup_neg_one] at hr
        cases hr
      have hk0 : 0 ≤ k := by omega
      have hits : intToChars k = natToChars k.toNat := by
        unfold intToChars
        rw [if_neg (by omega)]
      have hkc : keyChars k = '<' :: natToChars k.toNat ++ ['>'] := by
        unfold keyChars
        rw [if_neg hpr, hr, hits]
      rw [hkc]
      have hassoc : (('<' :: natToChars k.toNat ++ ['>']) ++ rest)
          = '<' :: (natToChars k.toNat ++ '>' :: rest) := by simp
      rw [hassoc]
      have hgt : ∀ c ∈ natToChars k.toNat, c ≠ '>' := by
        intro c hc hh
        have hb := natToChars_digits _ c hc
        rw [hh] at hb
        simp at hb
      have hlt : ('<' : Char) = '<' := rfl
      simp only [parseGo, if_pos hlt]
      rw [parseGo_bracket (natToChars k.toNat) rest [] hgt]
      simp only [List.nil_append, bracketEmit_natToChars]
      have : ((k.toNat : Nat) : Int) = k := by omega
      rw [this]
      rfl

theorem parseGo_flatMap_keyChars :
    ∀ ks : List Int, (∀ k ∈ ks, -1 ≤ k) → (60 : Int) ∉ ks →
      parseGo (ks.flatMap keyChars) false [] = ks := by
  intro ks
  induction ks with
  | nil => intro _ _; rfl
  | cons k ks' ih =>
    intro hge h60
    have hk : k ≠ 60 := by
      intro hh
      exact h60 (by rw [← hh]; exact List.mem_cons_self _ _)
    simp only [List.flatMap_cons]
    rw [parse_keyChars k _ (hge k (List.mem_cons_self _ _)) hk]
    rw [ih (fun k' hk' => hge k' (List.mem_cons_of_mem _ hk'))
      (fun hm => h60 (List.mem_cons_of_mem _ hm))]

/-- C5 (amended): for every binding string whose parse output does not
contain the code 60 (the character `<`, whose unparse re-opens a bracket),
re-parsing the unparsed output reproduces the parse output exactly:
`parse (unparse (parse s)) = parse s`.  The restriction is forced — see the
counterexample, where a parse output containing 60 breaks idempotence. -/
theorem C5_reparse (s : String) (h : (60 : Int) ∉ parse_keybinding s) :
    parse_keybinding (construct_keybinding (parse_keybinding s))
      = parse_keybinding s := by
  have hge : ∀ k ∈ parse_keybinding s, -1 ≤ k := by
    intro k hk
    exact parseGo_ge _ _ _ k hk
  show parseGo ((parse_keybinding s).flatMap keyChars) false []
      = parse_keybinding s
  exact parseGo_flatMap_keyChars _ hge h

/-- Witness for C5: the parse of `"lol<CR>"` (no code 60 in the output)
survives an unparse/re-parse roundtrip. -/
theorem C5_reparse_witness :
    parse_keybinding (construct_keybinding (parse_keybinding "lol<CR>"))
      = parse_keybinding "lol<CR>" :=
  C5_reparse "lol<CR>" (by decide)

/-- Counterexample for C5 as stated: `parse "<lt>cr>"` is
`[60, 99, 114, 62]`, which unparses to `"<cr>"`, and re-parsing that gives
`[10]` — parsing is not idempotent on its own unparsed output. -/
theorem C5_counterexample :
    parse_keybinding "<lt>cr>" = [60, 99, 114, 62]
    ∧ construct_keybinding [60, 99, 114, 62] = "<cr>"
    ∧ parse_keybinding (construct_keybinding (parse_keybinding "<lt>cr>")) = [10]
    ∧ ([10] : List Int) ≠ [60, 99, 114, 62] :=
  ⟨rfl, rfl, rfl, by decide⟩
